import Mathlib

/-!
Verification of the palm-detection decoding pipeline
(`src/main.rs`: anchor grid, detection decoder, greedy NMS, coordinate mapper).

Numeric model: the source works on `f32`.  We embed `f32` values exactly as
`F = nan sign | inf sign | num (q : ℚ)`: finite values are exact rationals
(every arithmetic operation appearing in the decode pipeline whose behaviour a
claim depends on is either exact in `f32` for the constants involved, or the
claim is purely structural), infinities and NaNs are explicit so that IEEE-754
comparison semantics (`NaN < t = false`, `total_cmp`'s total order with
`-NaN` first and `+NaN` last) are modelled faithfully.  Signed zeros are
identified and NaN payloads are collapsed to a sign bit.  An arithmetic
operation with a NaN operand propagates that operand's sign bit (as the
hardware propagates the operand); an invalid operation on non-NaN operands
(`0/0`, `inf - inf`, `0 * inf`, `inf / inf`) produces the canonical NaN
`F.qnan` (IEEE leaves that sign unspecified; no claim depends on it).
-/

set_option maxHeartbeats 1000000

namespace PalmDetect

/-- Exact model of an `f32` value: NaN (with sign bit), signed infinity, or a
finite value represented as an exact rational. -/
inductive F where
  | nan (neg : Bool)
  | inf (neg : Bool)
  | num (q : ℚ)
deriving DecidableEq

namespace F

/-- Canonical NaN produced by invalid arithmetic operations. -/
def qnan : F := nan true

/-- IEEE-754 addition on the model. -/
def add : F → F → F
  | nan s, _ => nan s
  | _, nan s => nan s
  | inf a, inf b => if a = b then inf a else qnan
  | inf a, num _ => inf a
  | num _, inf b => inf b
  | num a, num b => num (a + b)

/-- IEEE-754 subtraction on the model. -/
def sub : F → F → F
  | nan s, _ => nan s
  | _, nan s => nan s
  | inf a, inf b => if a = b then qnan else inf a
  | inf a, num _ => inf a
  | num _, inf b => inf (!b)
  | num a, num b => num (a - b)

/-- IEEE-754 multiplication on the model (signed zeros identified). -/
def mul : F → F → F
  | nan s, _ => nan s
  | _, nan s => nan s
  | inf a, inf b => inf (Bool.xor a b)
  | inf a, num q => if q = 0 then qnan else inf (Bool.xor a (decide (q < 0)))
  | num q, inf b => if q = 0 then qnan else inf (Bool.xor b (decide (q < 0)))
  | num a, num b => num (a * b)

/-- IEEE-754 division on the model (signed zeros identified; `0/0 = NaN`,
`x/0 = ±inf` for `x ≠ 0`). -/
def div : F → F → F
  | nan s, _ => nan s
  | _, nan s => nan s
  | inf _, inf _ => qnan
  | inf a, num q => inf (Bool.xor a (decide (q < 0)))
  | num _, inf _ => num 0
  | num a, num b =>
    if b = 0 then (if a = 0 then qnan else inf (decide (a < 0))) else num (a / b)

/-- Rust `f32::min`: if one argument is NaN the other is returned. -/
def fmin : F → F → F
  | nan _, y => y
  | x, nan _ => x
  | inf a, inf b => inf (a || b)
  | inf a, num q => if a then inf a else num q
  | num q, inf b => if b then inf b else num q
  | num a, num b => num (min a b)

/-- Rust `f32::max`: if one argument is NaN the other is returned. -/
def fmax : F → F → F
  | nan _, y => y
  | x, nan _ => x
  | inf a, inf b => inf (a && b)
  | inf a, num q => if a then num q else inf a
  | num q, inf b => if b then num q else inf b
  | num a, num b => num (max a b)

/-- IEEE-754 `<` (false whenever an operand is NaN). -/
def flt : F → F → Bool
  | nan _, _ => false
  | _, nan _ => false
  | inf a, inf b => a && !b
  | inf a, num _ => a
  | num _, inf b => !b
  | num a, num b => decide (a < b)

/-- IEEE-754 `≤` (false whenever an operand is NaN). -/
def fle : F → F → Bool
  | nan _, _ => false
  | _, nan _ => false
  | inf a, inf b => a || !b
  | inf a, num _ => a
  | num _, inf b => !b
  | num a, num b => decide (a ≤ b)

/-- IEEE-754 `≥` (false whenever an operand is NaN). -/
def fge (x y : F) : Bool := fle y x

/-- Rank of a value in the IEEE-754 total order used by `f32::total_cmp`:
`-NaN < -inf < finite < +inf < +NaN` (payloads collapsed, zeros identified). -/
def rank : F → ℕ
  | nan true => 0
  | inf true => 1
  | num _ => 2
  | inf false => 3
  | nan false => 4

/-- Model of Rust `f32::total_cmp` (IEEE-754 totalOrder). -/
def totalCmp (x y : F) : Ordering :=
  match x, y with
  | num a, num b =>
    if a < b then Ordering.lt else if b < a then Ordering.gt else Ordering.eq
  | x, y =>
    if rank x < rank y then Ordering.lt
    else if rank y < rank x then Ordering.gt
    else Ordering.eq

/-- Whether a value is a NaN. -/
def isNan : F → Bool
  | nan _ => true
  | _ => false

/-- Whether a value is finite. -/
def isFinite : F → Bool
  | num _ => true
  | _ => false

/-- The finite value, `0` otherwise (auxiliary to `F.key`). -/
def val : F → ℚ
  | num q => q
  | _ => 0

/-- Lexicographic key realising the `total_cmp` order: rank first, then the
finite value. -/
def key (x : F) : ℕ ×ₗ ℚ := toLex (rank x, val x)

/-- Equality up to NaN: equal values, or two NaNs (of possibly different
sign).  This is the sense in which the model identifies the results of two
computations whose NaN signs may legitimately differ on real hardware. -/
def eqn (x y : F) : Prop := x = y ∨ (isNan x = true ∧ isNan y = true)

end F

/-- The source's `BBox`: top-left corner plus width/height (`f32` fields). -/
structure BBox where
  x : F
  y : F
  w : F
  h : F
deriving DecidableEq

namespace BBox

/-- `BBox::to_xyxy`: corner representation `(x, y, x + w, y + h)`. -/
def to_xyxy (b : BBox) : F × F × F × F :=
  (b.x, b.y, F.add b.x b.w, F.add b.y b.h)

/-- `BBox::intersection`: clipped overlap area, `0.0` when either clipped
dimension is negative. -/
def intersection (b o : BBox) : F :=
  match b.to_xyxy, o.to_xyxy with
  | (x1, y1, x2, y2), (x3, y3, x4, y4) =>
    let w := F.sub (F.fmin x2 x4) (F.fmax x1 x3)
    let h := F.sub (F.fmin y2 y4) (F.fmax y1 y3)
    if F.flt w (F.num 0) || F.flt h (F.num 0) then F.num 0 else F.mul w h

/-- `BBox::area`. -/
def area (b : BBox) : F := F.mul b.w b.h

/-- `BBox::union`. -/
def union (b o : BBox) : F :=
  F.sub (F.add b.area o.area) (b.intersection o)

/-- `BBox::iou`: intersection over union, with no guard for a zero union. -/
def iou (b o : BBox) : F := F.div (b.intersection o) (b.union o)

/-- `BBox::shift`. -/
def shift (b : BBox) (x y : F) : BBox :=
  { x := F.add b.x x, y := F.add b.y y, w := b.w, h := b.h }

/-- `BBox::scale`. -/
def scale (b : BBox) (scale_x scale_y : F) : BBox :=
  { x := F.mul b.x scale_x, y := F.mul b.y scale_y,
    w := F.mul b.w scale_x, h := F.mul b.h scale_y }

end BBox

/-- The source's `Palm`: bounding box, seven landmark points, score.  The
`[(f32, f32); 7]` array is modelled as a list (always of length 7 here). -/
structure Palm where
  bbox : BBox
  tips : List (F × F)
  score : F
deriving DecidableEq

namespace Palm

/-- `Palm::shift`: shifts the box and every landmark, keeps the score. -/
def shift (p : Palm) (x y : F) : Palm :=
  { bbox := p.bbox.shift x y,
    tips := p.tips.map (fun t => (F.add t.1 x, F.add t.2 y)),
    score := p.score }

/-- `Palm::scale`: scales the box and every landmark per axis, keeps the
score. -/
def scale (p : Palm) (scale_x scale_y : F) : Palm :=
  { bbox := p.bbox.scale scale_x scale_y,
    tips := p.tips.map (fun t => (F.mul t.1 scale_x, F.mul t.2 scale_y)),
    score := p.score }

end Palm

/-- The inner `add_grid` of `get_grid_box_coords`.  The source writes into a
pre-zeroed flat buffer with a cursor `n` that advances exactly 4 slots per
iteration `j` (two writes at `n`, `n+1`, then a skip of 2 zero slots), so the
buffer segment it fills is the concatenation of the 4-blocks
`[x_off j, y_off j, 0, 0]` for `j` in `0 .. repeats*rows*rows`, with
`x_off j = cell_width * ((j/repeats) % rows - (rows-1)*0.5)` and
`y_off j = cell_width * (j/repeats/rows - (rows-1)*0.5)` (`/` and `%` on
integers).  All these values are exactly representable in `f32`. -/
def add_grid (rows repeats cell_width : ℕ) : List F :=
  (List.range (repeats * rows * rows)).flatMap (fun j =>
    [F.num ((cell_width : ℚ) * ((((j / repeats) % rows : ℕ) : ℚ) - ((rows - 1 : ℕ) : ℚ) * (1/2))),
     F.num ((cell_width : ℚ) * (((j / repeats / rows : ℕ) : ℚ) - ((rows - 1 : ℕ) : ℚ) * (1/2))),
     F.num 0, F.num 0])

/-- `get_grid_box_coords`: the flat `2016 * 4` anchor buffer, the
`(24, 2, 8)` sub-grid followed by the `(12, 6, 16)` sub-grid. -/
def get_grid_box_coords : List F :=
  add_grid 24 2 8 ++ add_grid 12 6 16

/-- The `anchors` 2016×4 array: row `i`, column `k` of the reshaped flat
buffer. -/
def anchors (i k : ℕ) : F :=
  get_grid_box_coords.getD (4 * i + k) (F.num 0)

/-- Column `k` of row `i` of `box_coords = regressors[.., 0..4] + anchors`. -/
def boxCoord (r : ℕ → ℕ → F) (i k : ℕ) : F :=
  F.add (r i k) (anchors i k)

/-- The decoder stage of `get_palm`: raw regressor rows
(`r i k = regressors[(0, i, k)]`) and scores (`sc i = scores[(0, i, 0)]`) to
the 2016 candidate `Palm`s, exactly as the `(0..2016).map(...)` in the
source. -/
def getPalmDecode (r : ℕ → ℕ → F) (sc : ℕ → F) : List Palm :=
  (List.range 2016).map (fun i =>
    { bbox := { x := F.sub (boxCoord r i 0) (F.div (boxCoord r i 2) (F.num 2)),
                y := F.sub (boxCoord r i 1) (F.div (boxCoord r i 3) (F.num 2)),
                w := boxCoord r i 2,
                h := boxCoord r i 3 },
      tips := (List.range 7).map (fun j =>
        (F.add (r i (4 + j * 2)) (boxCoord r i 0),
         F.add (r i (4 + j * 2 + 1)) (boxCoord r i 1))),
      score := sc i })

/-- Decoded detection for row `i` as the specification describes it: decoded
center `anchors[i] + regressors[i, 0:2]`, size `regressors[i, 2:4]` (not
anchor-relative), box corner `center - size/2`, landmarks offset from the
decoded center.  Stated for comparison with `getPalmDecode`. -/
def specDecodeRow (r : ℕ → ℕ → F) (sc : ℕ → F) (i : ℕ) : Palm :=
  let cx := F.add (anchors i 0) (r i 0)
  let cy := F.add (anchors i 1) (r i 1)
  { bbox := { x := F.sub cx (F.div (r i 2) (F.num 2)),
              y := F.sub cy (F.div (r i 3) (F.num 2)),
              w := r i 2,
              h := r i 3 },
    tips := (List.range 7).map (fun j =>
      (F.add (r i (4 + 2 * j)) cx, F.add (r i (4 + 2 * j + 1)) cy)),
    score := sc i }

/-- The comparator of `palms.sort_by(|p1, p2| p2.score.total_cmp(&p1.score))`
as a boolean order: `p1` may precede `p2` iff the comparator does not return
`Greater`, i.e. sorts by descending score in the `total_cmp` order. -/
def palmLe (p1 p2 : Palm) : Bool :=
  match F.totalCmp p2.score p1.score with
  | Ordering.gt => false
  | _ => true

/-- Rust's `slice::sort_by` is a stable sort; `List.mergeSort` is the stable
sort of the Lean library, so it is the faithful model of the sorting step. -/
def nmsSort (palms : List Palm) : List Palm :=
  palms.mergeSort palmLe

/-- Outcome of the suppression loop: a result list, or the `palms[0]` panic
on an empty candidate vector. -/
inductive NmsOut where
  | ok (res : List Palm)
  | panic
deriving DecidableEq

/-- The greedy suppression `loop` of `get_palm`, fuel-indexed (`none` means
the loop did not finish within `fuel` iterations): take the first remaining
candidate, stop if its score is below the threshold, otherwise accept it and
retain only candidates whose IoU with it is strictly below the IoU
threshold. -/
def nmsLoop (st it : F) : ℕ → List Palm → List Palm → Option NmsOut
  | 0, _, _ => none
  | fuel+1, res, palms =>
    match palms with
    | [] => some NmsOut.panic
    | palm :: _ =>
      if F.flt palm.score st then some (NmsOut.ok res)
      else nmsLoop st it fuel (res ++ [palm])
        (palms.filter (fun p2 => F.flt (p2.bbox.iou palm.bbox) it))

/-- Sort then suppress, as in `get_palm`. -/
def nmsRun (st it : F) (fuel : ℕ) (palms : List Palm) : Option NmsOut :=
  nmsLoop st it fuel [] (nmsSort palms)

/-- The coordinate-mapping stage of `get_palm`:
`palm.shift(192.0/2.0, 192.0/2.0).scale(scale_x, scale_y)`. -/
def toImageSpace (p : Palm) (scale_x scale_y : F) : Palm :=
  (p.shift (F.num (192/2)) (F.num (192/2))).scale scale_x scale_y

/-- The whole pure pipeline of `get_palm` after inference: decode, sort,
suppress, map to image space. -/
def get_palm (r : ℕ → ℕ → F) (sc : ℕ → F) (scale_x scale_y st it : F)
    (fuel : ℕ) : Option (List Palm) :=
  match nmsRun st it fuel (getPalmDecode r sc) with
  | some (NmsOut.ok res) => some (res.map (fun p => toImageSpace p scale_x scale_y))
  | _ => none

/-- Default `Palm` used as the `List.getD` fallback. -/
def dPalm : Palm :=
  { bbox := { x := F.num 0, y := F.num 0, w := F.num 0, h := F.num 0 },
    tips := [], score := F.num 0 }

/-- Demonstration candidate: score 2, unit box at the origin. -/
def demoA : Palm := ⟨⟨F.num 0, F.num 0, F.num 1, F.num 1⟩, [], F.num 2⟩

/-- Demonstration candidate: score 1, unit box far from the others. -/
def demoB : Palm := ⟨⟨F.num 10, F.num 10, F.num 1, F.num 1⟩, [], F.num 1⟩

/-- Demonstration candidate: score 0, unit box far from the others. -/
def demoC : Palm := ⟨⟨F.num 20, F.num 20, F.num 1, F.num 1⟩, [], F.num 0⟩

/-- Demonstration candidate with a positive NaN score. -/
def demoN : Palm := ⟨⟨F.num 0, F.num 0, F.num 1, F.num 1⟩, [], F.nan false⟩

/-- Second demonstration candidate with a positive NaN score. -/
def demoM : Palm := ⟨⟨F.num 5, F.num 5, F.num 1, F.num 1⟩, [], F.nan false⟩

/-! ## Basic facts about the `f32` model -/

theorem F.keyLtIff (x y : F) :
    F.key x < F.key y ↔
      F.rank x < F.rank y ∨ (F.rank x = F.rank y ∧ F.val x < F.val y) :=
  Prod.Lex.lt_iff _ _

theorem F.keyChar (x y : F) :
    F.totalCmp x y =
      if F.key x < F.key y then Ordering.lt
      else if F.key y < F.key x then Ordering.gt
      else Ordering.eq := by
  rcases x with (_ | _) | (_ | _) | a <;> rcases y with (_ | _) | (_ | _) | b <;>
      simp only [F.totalCmp, F.keyLtIff, F.rank, F.val] <;>
      norm_num

theorem F.totalCmpNeGt (x y : F) :
    F.totalCmp x y ≠ Ordering.gt ↔ F.key x ≤ F.key y := by
  rw [F.keyChar]
  split_ifs with h1 h2
  · simp [le_of_lt h1]
  · simp [not_le.mpr h2]
  · simp [le_of_not_lt h2]

theorem F.totalCmpEqOrd (x y : F) :
    F.totalCmp x y = Ordering.eq ↔ F.key x = F.key y := by
  rw [F.keyChar]
  split_ifs with h1 h2
  · simp [ne_of_lt h1]
  · simp [(ne_of_lt h2).symm]
  · simp [le_antisymm (le_of_not_lt h2) (le_of_not_lt h1)]

theorem palmLeEqTrue (p q : Palm) :
    palmLe p q = true ↔ F.totalCmp q.score p.score ≠ Ordering.gt := by
  cases h : F.totalCmp q.score p.score <;> simp [palmLe, h]

theorem palmLeKey (p q : Palm) :
    palmLe p q = true ↔ F.key q.score ≤ F.key p.score := by
  rw [palmLeEqTrue, F.totalCmpNeGt]

theorem palmLeTransT (a b c : Palm) :
    palmLe a b → palmLe b c → palmLe a c := by
  intro hab hbc
  rw [palmLeKey] at hab hbc ⊢
  exact le_trans hbc hab

theorem palmLeTotalT (a b : Palm) : palmLe a b || palmLe b a := by
  simp only [Bool.or_eq_true, palmLeKey]
  exact le_total _ _

theorem F.addNumComm (x : F) (c : ℚ) : F.add x (F.num c) = F.add (F.num c) x := by
  cases x <;> simp [F.add, add_comm]

theorem F.addNumZero (x : F) : F.add x (F.num 0) = x := by
  cases x <;> simp [F.add]

theorem F.numZeroAdd (x : F) : F.add (F.num 0) x = x := by
  cases x <;> simp [F.add]

theorem F.mulNumOne (x : F) : F.mul x (F.num 1) = x := by
  have h : decide ((1:ℚ) < 0) = false := decide_eq_false (by norm_num)
  cases x <;> simp [F.mul, h]

theorem F.addSubNum (x : F) (c : ℚ) :
    F.add (F.add x (F.num c)) (F.num (-c)) = x := by
  cases x <;> simp [F.add]


theorem F.addNum (a b : ℚ) : F.add (F.num a) (F.num b) = F.num (a + b) := rfl

theorem F.subNum (a b : ℚ) : F.sub (F.num a) (F.num b) = F.num (a - b) := rfl

theorem F.mulNum (a b : ℚ) : F.mul (F.num a) (F.num b) = F.num (a * b) := rfl

theorem F.divNum (a b : ℚ) :
    F.div (F.num a) (F.num b) =
      if b = 0 then (if a = 0 then F.qnan else F.inf (decide (a < 0)))
      else F.num (a / b) := rfl

theorem F.fminNum (a b : ℚ) : F.fmin (F.num a) (F.num b) = F.num (min a b) := rfl

theorem F.fmaxNum (a b : ℚ) : F.fmax (F.num a) (F.num b) = F.num (max a b) := rfl

theorem F.fltNum (a b : ℚ) : F.flt (F.num a) (F.num b) = decide (a < b) := rfl

theorem F.fleNum (a b : ℚ) : F.fle (F.num a) (F.num b) = decide (a ≤ b) := rfl

theorem F.fleNanR (x : F) (s : Bool) : F.fle x (F.nan s) = false := by
  cases x <;> rfl

theorem F.fleNanL (s : Bool) (y : F) : F.fle (F.nan s) y = false := by
  cases y <;> rfl

theorem F.eqnRefl (x : F) : F.eqn x x := Or.inl rfl

theorem F.eqnSymm {x y : F} (h : F.eqn x y) : F.eqn y x := by
  rcases h with rfl | ⟨h1, h2⟩
  · exact Or.inl rfl
  · exact Or.inr ⟨h2, h1⟩

theorem F.eqnTrans {x y z : F} (h1 : F.eqn x y) (h2 : F.eqn y z) : F.eqn x z := by
  rcases h1 with rfl | ⟨a1, a2⟩
  · exact h2
  · rcases h2 with rfl | ⟨b1, b2⟩
    · exact Or.inr ⟨a1, a2⟩
    · exact Or.inr ⟨a1, b2⟩

theorem F.eqNanOfIsNan {x : F} (h : F.isNan x = true) : ∃ s, x = F.nan s := by
  cases x <;> simp_all [F.isNan]

theorem F.eqnEqOfNotNan {x y : F} (h : F.eqn x y) (hn : F.isNan x = false) :
    x = y := by
  rcases h with rfl | ⟨h1, _⟩
  · rfl
  · rw [h1] at hn; cases hn

theorem F.addNanL {x : F} (y : F) (h : F.isNan x = true) :
    F.isNan (F.add x y) = true := by
  obtain ⟨s, rfl⟩ := F.eqNanOfIsNan h; cases y <;> rfl

theorem F.addNanR (x : F) {y : F} (h : F.isNan y = true) :
    F.isNan (F.add x y) = true := by
  obtain ⟨s, rfl⟩ := F.eqNanOfIsNan h; cases x <;> rfl

theorem F.subNanL {x : F} (y : F) (h : F.isNan x = true) :
    F.isNan (F.sub x y) = true := by
  obtain ⟨s, rfl⟩ := F.eqNanOfIsNan h; cases y <;> rfl

theorem F.subNanR (x : F) {y : F} (h : F.isNan y = true) :
    F.isNan (F.sub x y) = true := by
  obtain ⟨s, rfl⟩ := F.eqNanOfIsNan h; cases x <;> rfl

theorem F.mulNanL {x : F} (y : F) (h : F.isNan x = true) :
    F.isNan (F.mul x y) = true := by
  obtain ⟨s, rfl⟩ := F.eqNanOfIsNan h; cases y <;> rfl

theorem F.mulNanR (x : F) {y : F} (h : F.isNan y = true) :
    F.isNan (F.mul x y) = true := by
  obtain ⟨s, rfl⟩ := F.eqNanOfIsNan h; cases x <;> rfl

theorem F.divNanL {x : F} (y : F) (h : F.isNan x = true) :
    F.isNan (F.div x y) = true := by
  obtain ⟨s, rfl⟩ := F.eqNanOfIsNan h; cases y <;> rfl

theorem F.divNanR (x : F) {y : F} (h : F.isNan y = true) :
    F.isNan (F.div x y) = true := by
  obtain ⟨s, rfl⟩ := F.eqNanOfIsNan h; cases x <;> rfl

theorem F.addEqn {x x' y y' : F} (hx : F.eqn x x') (hy : F.eqn y y') :
    F.eqn (F.add x y) (F.add x' y') := by
  rcases hx with rfl | ⟨h1, h2⟩
  · rcases hy with rfl | ⟨g1, g2⟩
    · exact F.eqnRefl _
    · exact Or.inr ⟨F.addNanR x g1, F.addNanR x g2⟩
  · exact Or.inr ⟨F.addNanL y h1, F.addNanL y' h2⟩

theorem F.subEqn {x x' y y' : F} (hx : F.eqn x x') (hy : F.eqn y y') :
    F.eqn (F.sub x y) (F.sub x' y') := by
  rcases hx with rfl | ⟨h1, h2⟩
  · rcases hy with rfl | ⟨g1, g2⟩
    · exact F.eqnRefl _
    · exact Or.inr ⟨F.subNanR x g1, F.subNanR x g2⟩
  · exact Or.inr ⟨F.subNanL y h1, F.subNanL y' h2⟩

theorem F.mulEqn {x x' y y' : F} (hx : F.eqn x x') (hy : F.eqn y y') :
    F.eqn (F.mul x y) (F.mul x' y') := by
  rcases hx with rfl | ⟨h1, h2⟩
  · rcases hy with rfl | ⟨g1, g2⟩
    · exact F.eqnRefl _
    · exact Or.inr ⟨F.mulNanR x g1, F.mulNanR x g2⟩
  · exact Or.inr ⟨F.mulNanL y h1, F.mulNanL y' h2⟩

theorem F.divEqn {x x' y y' : F} (hx : F.eqn x x') (hy : F.eqn y y') :
    F.eqn (F.div x y) (F.div x' y') := by
  rcases hx with rfl | ⟨h1, h2⟩
  · rcases hy with rfl | ⟨g1, g2⟩
    · exact F.eqnRefl _
    · exact Or.inr ⟨F.divNanR x g1, F.divNanR x g2⟩
  · exact Or.inr ⟨F.divNanL y h1, F.divNanL y' h2⟩

theorem F.fminNanL {x : F} (y : F) (h : F.isNan x = true) : F.fmin x y = y := by
  obtain ⟨s, rfl⟩ := F.eqNanOfIsNan h; cases y <;> rfl

theorem F.fminNanR (x : F) {y : F} (h : F.isNan y = true) :
    F.eqn (F.fmin x y) x := by
  obtain ⟨s, rfl⟩ := F.eqNanOfIsNan h
  cases x <;> first | exact Or.inr ⟨rfl, rfl⟩ | exact Or.inl rfl

theorem F.fmaxNanL {x : F} (y : F) (h : F.isNan x = true) : F.fmax x y = y := by
  obtain ⟨s, rfl⟩ := F.eqNanOfIsNan h; cases y <;> rfl

theorem F.fmaxNanR (x : F) {y : F} (h : F.isNan y = true) :
    F.eqn (F.fmax x y) x := by
  obtain ⟨s, rfl⟩ := F.eqNanOfIsNan h
  cases x <;> first | exact Or.inr ⟨rfl, rfl⟩ | exact Or.inl rfl

theorem F.fminEqn {x x' y y' : F} (hx : F.eqn x x') (hy : F.eqn y y') :
    F.eqn (F.fmin x y) (F.fmin x' y') := by
  rcases hx with rfl | ⟨h1, h2⟩
  · rcases hy with rfl | ⟨g1, g2⟩
    · exact F.eqnRefl _
    · exact F.eqnTrans (F.fminNanR x g1) (F.eqnSymm (F.fminNanR x g2))
  · rw [F.fminNanL y h1, F.fminNanL y' h2]; exact hy

theorem F.fmaxEqn {x x' y y' : F} (hx : F.eqn x x') (hy : F.eqn y y') :
    F.eqn (F.fmax x y) (F.fmax x' y') := by
  rcases hx with rfl | ⟨h1, h2⟩
  · rcases hy with rfl | ⟨g1, g2⟩
    · exact F.eqnRefl _
    · exact F.eqnTrans (F.fmaxNanR x g1) (F.eqnSymm (F.fmaxNanR x g2))
  · rw [F.fmaxNanL y h1, F.fmaxNanL y' h2]; exact hy

theorem F.addSwapEqn (x y : F) : F.eqn (F.add x y) (F.add y x) := by
  cases x <;> cases y <;> simp only [F.add] <;>
    first
      | exact Or.inl rfl
      | exact Or.inr ⟨rfl, rfl⟩
      | exact Or.inl (by rw [add_comm])
      | (rename_i a b
         refine Or.inl ?_
         by_cases h : a = b
         · simp [h]
         · simp [h, Ne.symm h])

theorem F.mulSwapEqn (x y : F) : F.eqn (F.mul x y) (F.mul y x) := by
  cases x <;> cases y <;> simp only [F.mul] <;>
    first
      | exact Or.inl rfl
      | exact Or.inr ⟨rfl, rfl⟩
      | exact Or.inl (by rw [mul_comm])
      | (rename_i a b
         exact Or.inl (by rw [Bool.xor_comm]))

theorem F.fminSwapEqn (x y : F) : F.eqn (F.fmin x y) (F.fmin y x) := by
  cases x <;> cases y <;> simp only [F.fmin] <;>
    first
      | exact Or.inl rfl
      | exact Or.inr ⟨rfl, rfl⟩
      | exact Or.inl (by rw [min_comm])
      | (rename_i a b
         exact Or.inl (by rw [Bool.or_comm]))

theorem F.fmaxSwapEqn (x y : F) : F.eqn (F.fmax x y) (F.fmax y x) := by
  cases x <;> cases y <;> simp only [F.fmax] <;>
    first
      | exact Or.inl rfl
      | exact Or.inr ⟨rfl, rfl⟩
      | exact Or.inl (by rw [max_comm])
      | (rename_i a b
         exact Or.inl (by rw [Bool.and_comm]))

theorem F.fltNanL (s : Bool) (y : F) : F.flt (F.nan s) y = false := by
  cases y <;> rfl

theorem F.fltEqnL {x x' : F} (y : F) (h : F.eqn x x') :
    F.flt x y = F.flt x' y := by
  rcases h with rfl | ⟨h1, h2⟩
  · rfl
  · obtain ⟨s, rfl⟩ := F.eqNanOfIsNan h1
    obtain ⟨t, rfl⟩ := F.eqNanOfIsNan h2
    rw [F.fltNanL, F.fltNanL]

theorem F.fltTrueNotNanL {x y : F} (h : F.flt x y = true) : F.isNan x = false := by
  cases x <;> first | rfl | (rw [F.fltNanL] at h; cases h)

theorem F.fltImpNotFge {x y : F} (h : F.flt x y = true) : F.fge x y = false := by
  rcases x with (_ | _) | (_ | _) | a <;> rcases y with (_ | _) | (_ | _) | b <;>
    simp_all [F.flt, F.fle, F.fge, not_le]

/-! ## IoU is symmetric up to NaN -/

theorem BBox.interDef (A B : BBox) :
    A.intersection B =
      (if F.flt (F.sub (F.fmin (F.add A.x A.w) (F.add B.x B.w)) (F.fmax A.x B.x)) (F.num 0)
          || F.flt (F.sub (F.fmin (F.add A.y A.h) (F.add B.y B.h)) (F.fmax A.y B.y)) (F.num 0)
       then F.num 0
       else F.mul (F.sub (F.fmin (F.add A.x A.w) (F.add B.x B.w)) (F.fmax A.x B.x))
                  (F.sub (F.fmin (F.add A.y A.h) (F.add B.y B.h)) (F.fmax A.y B.y))) := rfl

theorem BBox.interSwapEqn (A B : BBox) :
    F.eqn (A.intersection B) (B.intersection A) := by
  rw [BBox.interDef, BBox.interDef]
  have hw := F.subEqn (F.fminSwapEqn (F.add A.x A.w) (F.add B.x B.w))
    (F.fmaxSwapEqn A.x B.x)
  have hh := F.subEqn (F.fminSwapEqn (F.add A.y A.h) (F.add B.y B.h))
    (F.fmaxSwapEqn A.y B.y)
  rw [F.fltEqnL _ hw, F.fltEqnL _ hh]
  split_ifs with hc
  · exact F.eqnRefl _
  · exact F.mulEqn hw hh

theorem BBox.unionSwapEqn (A B : BBox) :
    F.eqn (A.union B) (B.union A) :=
  F.subEqn (F.addSwapEqn A.area B.area) (BBox.interSwapEqn A B)

theorem BBox.iouSwapEqn (A B : BBox) :
    F.eqn (A.iou B) (B.iou A) :=
  F.divEqn (BBox.interSwapEqn A B) (BBox.unionSwapEqn A B)

/-! ## Anchor grid -/

theorem flatMapLen (g : ℕ → List F) (hg : ∀ j, (g j).length = 4) (m : ℕ) :
    ((List.range m).flatMap g).length = 4 * m := by
  induction m with
  | zero => rfl
  | succ m ih =>
    rw [List.range_succ, List.flatMap_append, List.length_append, ih]
    simp [hg]
    omega

theorem flatMapBlockGetD (g : ℕ → List F) (hg : ∀ j, (g j).length = 4) (z : F) :
    ∀ (m q r : ℕ), q < m → r < 4 →
      ((List.range m).flatMap g).getD (4 * q + r) z = (g q).getD r z := by
  intro m
  induction m with
  | zero => intro q r hq _; exact absurd hq (Nat.not_lt_zero q)
  | succ m ih =>
    intro q r hq hr
    rw [List.range_succ, List.flatMap_append]
    by_cases h : q < m
    · rw [List.getD_append _ _ _ _ (by rw [flatMapLen g hg]; omega)]
      exact ih q r h hr
    · have hq' : q = m := by omega
      subst hq'
      rw [List.getD_append_right _ _ _ _ (by rw [flatMapLen g hg]; omega)]
      rw [flatMapLen g hg]
      have hsub : 4 * q + r - 4 * q = r := by omega
      rw [hsub]
      simp

theorem addGridLength (rows repeats cw : ℕ) :
    (add_grid rows repeats cw).length = 4 * (repeats * rows * rows) :=
  flatMapLen (fun j =>
    [F.num ((cw : ℚ) * ((((j / repeats) % rows : ℕ) : ℚ) - ((rows - 1 : ℕ) : ℚ) * (1/2))),
     F.num ((cw : ℚ) * (((j / repeats / rows : ℕ) : ℚ) - ((rows - 1 : ℕ) : ℚ) * (1/2))),
     F.num 0, F.num 0]) (fun _ => rfl) _

theorem addGridGetD (rows repeats cw : ℕ) (j k : ℕ)
    (hj : j < repeats * rows * rows) (hk : k < 4) (z : F) :
    (add_grid rows repeats cw).getD (4 * j + k) z =
      [F.num ((cw : ℚ) * ((((j / repeats) % rows : ℕ) : ℚ) - ((rows - 1 : ℕ) : ℚ) * (1/2))),
       F.num ((cw : ℚ) * (((j / repeats / rows : ℕ) : ℚ) - ((rows - 1 : ℕ) : ℚ) * (1/2))),
       F.num 0, F.num 0].getD k z :=
  flatMapBlockGetD (fun j =>
    [F.num ((cw : ℚ) * ((((j / repeats) % rows : ℕ) : ℚ) - ((rows - 1 : ℕ) : ℚ) * (1/2))),
     F.num ((cw : ℚ) * (((j / repeats / rows : ℕ) : ℚ) - ((rows - 1 : ℕ) : ℚ) * (1/2))),
     F.num 0, F.num 0]) (fun _ => rfl) z _ j k hj hk

theorem anchorsLow (j k : ℕ) (hj : j < 1152) (hk : k < 4) :
    anchors j k = (add_grid 24 2 8).getD (4 * j + k) (F.num 0) := by
  unfold anchors get_grid_box_coords
  rw [List.getD_append _ _ _ _ (by rw [addGridLength]; omega)]

theorem anchorsHigh (j k : ℕ) (h1 : 1152 ≤ j) (hj : j < 2016) (hk : k < 4) :
    anchors j k = (add_grid 12 6 16).getD (4 * (j - 1152) + k) (F.num 0) := by
  unfold anchors get_grid_box_coords
  rw [List.getD_append_right _ _ _ _ (by rw [addGridLength]; omega)]
  rw [addGridLength]
  have hidx : 4 * j + k - 4 * (6 * 12 * 12 + 2 * 24 * 24 - 6 * 12 * 12) = 4 * (j - 1152) + k := by
    omega
  norm_num at hidx ⊢
  rw [hidx]

theorem anchorsCol23 (i : ℕ) (hi : i < 2016) :
    anchors i 2 = F.num 0 ∧ anchors i 3 = F.num 0 := by
  by_cases h : i < 1152
  · rw [anchorsLow i 2 h (by omega), anchorsLow i 3 h (by omega),
      addGridGetD 24 2 8 i 2 (by omega) (by omega),
      addGridGetD 24 2 8 i 3 (by omega) (by omega)]
    exact ⟨rfl, rfl⟩
  · rw [anchorsHigh i 2 (by omega) hi (by omega),
      anchorsHigh i 3 (by omega) hi (by omega),
      addGridGetD 12 6 16 _ 2 (by omega) (by omega),
      addGridGetD 12 6 16 _ 3 (by omega) (by omega)]
    exact ⟨rfl, rfl⟩


theorem anchorsNum01 (i : ℕ) (hi : i < 2016) :
    (∃ a : ℚ, anchors i 0 = F.num a) ∧ (∃ b : ℚ, anchors i 1 = F.num b) := by
  by_cases h : i < 1152
  · rw [anchorsLow i 0 h (by omega), anchorsLow i 1 h (by omega),
      addGridGetD 24 2 8 i 0 (by omega) (by omega),
      addGridGetD 24 2 8 i 1 (by omega) (by omega)]
    exact ⟨⟨_, rfl⟩, ⟨_, rfl⟩⟩
  · rw [anchorsHigh i 0 (by omega) hi (by omega),
      anchorsHigh i 1 (by omega) hi (by omega),
      addGridGetD 12 6 16 _ 0 (by omega) (by omega),
      addGridGetD 12 6 16 _ 1 (by omega) (by omega)]
    exact ⟨⟨_, rfl⟩, ⟨_, rfl⟩⟩

/-- C2: the anchor grid builder, a pure function of fixed constants, always
produces exactly 2016 anchor offsets (a flat pre-zeroed buffer of 2016 * 4
entries): entries 0..1151 come from the (rows=24, repeats=2, cell_width=8)
sub-grid and entries 1152..2015 from the (rows=12, repeats=6, cell_width=16)
sub-grid, where for flat index j the x offset is
cell_width * ((j/repeats) % rows - (rows-1)/2) and the y offset is
cell_width * ((j/repeats)/rows - (rows-1)/2). -/
theorem c2_anchor_grid :
    get_grid_box_coords.length = 2016 * 4 ∧
    (∀ j, j < 1152 →
      anchors j 0 = F.num (8 * ((((j / 2) % 24 : ℕ) : ℚ) - (24 - 1) / 2)) ∧
      anchors j 1 = F.num (8 * (((j / 2 / 24 : ℕ) : ℚ) - (24 - 1) / 2))) ∧
    (∀ j, 1152 ≤ j → j < 2016 →
      anchors j 0 = F.num (16 * ((((j - 1152) / 6 % 12 : ℕ) : ℚ) - (12 - 1) / 2)) ∧
      anchors j 1 = F.num (16 * ((((j - 1152) / 6 / 12 : ℕ) : ℚ) - (12 - 1) / 2))) := by
  refine ⟨?_, ?_, ?_⟩
  · unfold get_grid_box_coords
    rw [List.length_append, addGridLength, addGridLength]
  · intro j hj
    rw [anchorsLow j 0 hj (by omega), anchorsLow j 1 hj (by omega),
      addGridGetD 24 2 8 j 0 (by omega) (by omega),
      addGridGetD 24 2 8 j 1 (by omega) (by omega)]
    norm_num [List.getD_cons_zero, List.getD_cons_succ]
  · intro j h1 h2
    rw [anchorsHigh j 0 h1 h2 (by omega), anchorsHigh j 1 h1 h2 (by omega),
      addGridGetD 12 6 16 _ 0 (by omega) (by omega),
      addGridGetD 12 6 16 _ 1 (by omega) (by omega)]
    norm_num [List.getD_cons_zero, List.getD_cons_succ]

theorem c2_anchor_grid_witness :
    (0:ℕ) < 1152 ∧ (1152:ℕ) ≤ 1152 ∧ (1152:ℕ) < 2016 ∧
    anchors 0 0 = F.num (8 * ((((0 / 2) % 24 : ℕ) : ℚ) - (24 - 1) / 2)) ∧
    anchors 1152 0 = F.num (16 * ((((1152 - 1152) / 6 % 12 : ℕ) : ℚ) - (12 - 1) / 2)) :=
  ⟨by norm_num, by norm_num, by norm_num,
   (c2_anchor_grid.2.1 0 (by norm_num)).1,
   (c2_anchor_grid.2.2 1152 (by norm_num) (by norm_num)).1⟩

/-- C1: for every row i in 0..2016 of the decoder inputs, the produced
Detection has box center anchors[i] + regressors[i, 0:2], box size
regressors[i, 2:4] (size not anchor-relative), bounding box
(center - size/2, size), and each landmark j equal to
(regressors[i, 4+2j] + center.x, regressors[i, 4+2j+1] + center.y); the
output sequence is index-aligned with the anchor order. -/
theorem c1_decoder_rows (r : ℕ → ℕ → F) (sc : ℕ → F) :
    (getPalmDecode r sc).length = 2016 ∧
    ∀ i, i < 2016 → (getPalmDecode r sc).getD i dPalm = specDecodeRow r sc i := by
  refine ⟨by simp [getPalmDecode], ?_⟩
  intro i hi
  obtain ⟨⟨a, ha⟩, ⟨b, hb⟩⟩ := anchorsNum01 i hi
  obtain ⟨h2, h3⟩ := anchorsCol23 i hi
  unfold getPalmDecode specDecodeRow boxCoord
  rw [List.getD_eq_getElem?_getD, List.getElem?_map, List.getElem?_range hi]
  simp [ha, hb, h2, h3, F.addNumZero, F.numZeroAdd, F.addNumComm, Nat.mul_comm]

theorem c1_decoder_rows_witness :
    (0:ℕ) < 2016 ∧
    (getPalmDecode (fun _ k => F.num k) (fun i => F.num i)).getD 0 dPalm =
      specDecodeRow (fun _ k => F.num k) (fun i => F.num i) 0 :=
  ⟨by norm_num, (c1_decoder_rows _ _).2 0 (by norm_num)⟩


/-- C6 counterexample: for two degenerate zero-area boxes the union is zero
and `iou` evaluates to NaN (an unguarded 0/0), not to 0 as the claim
states. -/
theorem c6_counterexample :
    BBox.union ⟨F.num 0, F.num 0, F.num 0, F.num 0⟩ ⟨F.num 0, F.num 0, F.num 0, F.num 0⟩
      = F.num 0 ∧
    BBox.iou ⟨F.num 0, F.num 0, F.num 0, F.num 0⟩ ⟨F.num 0, F.num 0, F.num 0, F.num 0⟩
      = F.qnan ∧
    BBox.iou ⟨F.num 0, F.num 0, F.num 0, F.num 0⟩ ⟨F.num 0, F.num 0, F.num 0, F.num 0⟩
      ≠ F.num 0 := by
  norm_num [BBox.iou, BBox.union, BBox.area, BBox.interDef, F.addNum, F.subNum, F.mulNum, F.divNum, F.fminNum, F.fmaxNum, F.fltNum, F.fleNum, F.fleNanR, F.fleNanL, F.qnan]
  decide

/-- C6 amended: when the union area is zero and the intersection is zero
(e.g. two degenerate zero-area boxes), `iou` divides 0/0 and returns NaN:
the source does not guard the zero-union case. -/
theorem c6_zero_union_nan (A B : BBox)
    (hu : A.union B = F.num 0) (hi : A.intersection B = F.num 0) :
    A.iou B = F.qnan := by
  unfold BBox.iou
  rw [hu, hi]
  simp [F.div]

theorem c6_zero_union_nan_witness :
    BBox.union ⟨F.num 0, F.num 0, F.num 1, F.num 0⟩ ⟨F.num 0, F.num 0, F.num 1, F.num 0⟩
      = F.num 0 ∧
    BBox.intersection ⟨F.num 0, F.num 0, F.num 1, F.num 0⟩ ⟨F.num 0, F.num 0, F.num 1, F.num 0⟩
      = F.num 0 ∧
    BBox.iou ⟨F.num 0, F.num 0, F.num 1, F.num 0⟩ ⟨F.num 0, F.num 0, F.num 1, F.num 0⟩
      = F.qnan :=
  ⟨by norm_num [BBox.iou, BBox.union, BBox.area, BBox.interDef, F.addNum, F.subNum, F.mulNum, F.divNum, F.fminNum, F.fmaxNum, F.fltNum, F.fleNum, F.fleNanR, F.fleNanL, F.qnan],
   by norm_num [BBox.iou, BBox.union, BBox.area, BBox.interDef, F.addNum, F.subNum, F.mulNum, F.divNum, F.fminNum, F.fmaxNum, F.fltNum, F.fleNum, F.fleNanR, F.fleNanL, F.qnan],
   c6_zero_union_nan _ _ (by norm_num [BBox.iou, BBox.union, BBox.area, BBox.interDef, F.addNum, F.subNum, F.mulNum, F.divNum, F.fminNum, F.fmaxNum, F.fltNum, F.fleNum, F.fleNanR, F.fleNanL, F.qnan])
     (by norm_num [BBox.iou, BBox.union, BBox.area, BBox.interDef, F.addNum, F.subNum, F.mulNum, F.divNum, F.fminNum, F.fmaxNum, F.fltNum, F.fleNum, F.fleNanR, F.fleNanL, F.qnan])⟩

/-- C7 counterexample: the degenerate zero box has non-negative width and
height, yet iou with itself is NaN, so iou does not lie in [0,1] (both
bounds fail under IEEE comparisons) and iou is not always well-behaved as
claimed. -/
theorem c7_counterexample :
    F.fle (F.num 0) (⟨F.num 0, F.num 0, F.num 0, F.num 0⟩ : BBox).w = true ∧
    F.fle (F.num 0) (⟨F.num 0, F.num 0, F.num 0, F.num 0⟩ : BBox).h = true ∧
    F.fle (F.num 0)
      (BBox.iou ⟨F.num 0, F.num 0, F.num 0, F.num 0⟩ ⟨F.num 0, F.num 0, F.num 0, F.num 0⟩)
      = false ∧
    F.fle
      (BBox.iou ⟨F.num 0, F.num 0, F.num 0, F.num 0⟩ ⟨F.num 0, F.num 0, F.num 0, F.num 0⟩)
      (F.num 1) = false := by
  norm_num [BBox.iou, BBox.union, BBox.area, BBox.interDef, F.addNum, F.subNum, F.mulNum, F.divNum, F.fminNum, F.fmaxNum, F.fltNum, F.fleNum, F.fleNanR, F.fleNanL, F.qnan]

/-- C8: the coordinate mapper is exactly the shift by (+96, +96) followed by
the per-axis scale by (scale_x, scale_y): box corner coordinates map to
(c + 96) * scale, width and height scale by the same factors without the
shift, landmarks map as points, and the score is unchanged; mapping with
scale_x = scale_y = 1 and then subtracting the (+96, +96) shift recovers the
original detection exactly. -/
theorem c8_mapper (p : Palm) (sx sy : F) :
    (toImageSpace p sx sy).bbox.x = F.mul (F.add p.bbox.x (F.num 96)) sx ∧
    (toImageSpace p sx sy).bbox.y = F.mul (F.add p.bbox.y (F.num 96)) sy ∧
    (toImageSpace p sx sy).bbox.w = F.mul p.bbox.w sx ∧
    (toImageSpace p sx sy).bbox.h = F.mul p.bbox.h sy ∧
    (toImageSpace p sx sy).tips =
      p.tips.map (fun t => (F.mul (F.add t.1 (F.num 96)) sx, F.mul (F.add t.2 (F.num 96)) sy)) ∧
    (toImageSpace p sx sy).score = p.score ∧
    (toImageSpace p (F.num 1) (F.num 1)).shift (F.num (-96)) (F.num (-96)) = p := by
  have h1 : (192 : ℚ) / 2 = 96 := by norm_num
  refine ⟨?_, ?_, ?_, ?_, ?_, ?_, ?_⟩ <;>
    simp [toImageSpace, Palm.shift, Palm.scale, BBox.shift, BBox.scale, h1,
      F.mulNumOne, F.addSubNum]
  cases p with
  | mk bbox tp sc =>
    cases bbox with
    | mk bx bby bw bh =>
      congr 1
      exact List.map_id'' (fun t => by simp [Function.comp, F.addSubNum]) tp

/-- C9: `Palm::shift` and `Palm::scale` are pure functions returning a new
value (mutation does not exist in this embedding); both leave the score
unchanged, and `shift` also leaves the box width and height unchanged. -/
theorem c9_shift_scale_frame (p : Palm) (x y sx sy : F) :
    (p.shift x y).score = p.score ∧
    (p.scale sx sy).score = p.score ∧
    (p.shift x y).bbox.w = p.bbox.w ∧
    (p.shift x y).bbox.h = p.bbox.h :=
  ⟨rfl, rfl, rfl, rfl⟩


theorem interNum (x y w h x' y' w' h' : ℚ) :
    BBox.intersection ⟨F.num x, F.num y, F.num w, F.num h⟩
        ⟨F.num x', F.num y', F.num w', F.num h'⟩ =
      (if (min (x + w) (x' + w') - max x x' < 0) ∨ (min (y + h) (y' + h') - max y y' < 0)
       then F.num 0
       else F.num ((min (x + w) (x' + w') - max x x') * (min (y + h) (y' + h') - max y y'))) := by
  rw [BBox.interDef]
  simp only [F.addNum, F.subNum, F.fminNum, F.fmaxNum, F.fltNum, F.mulNum,
    Bool.or_eq_true, decide_eq_true_eq]

theorem unionNum (x y w h x' y' w' h' : ℚ) :
    BBox.union ⟨F.num x, F.num y, F.num w, F.num h⟩
        ⟨F.num x', F.num y', F.num w', F.num h'⟩ =
      F.sub (F.num (w * h + w' * h'))
        (BBox.intersection ⟨F.num x, F.num y, F.num w, F.num h⟩
          ⟨F.num x', F.num y', F.num w', F.num h'⟩) := by
  unfold BBox.union BBox.area
  rw [F.mulNum, F.mulNum, F.addNum]

/-- C7 amended: iou is symmetric up to NaN (when both results are NaN their
signs may differ, and no f32 equality holds between NaNs anyway); iou(A,A)
equals 1.0 for any finite box A with non-negative width and height and
nonzero area; and iou(A,B) lies in [0,1] for finite boxes with non-negative
width and height whenever the union is nonzero (a zero union makes iou NaN,
which the counterexample shows falls outside [0,1]). -/
theorem c7_iou_algebra :
    (∀ A B : BBox, F.eqn (A.iou B) (B.iou A)) ∧
    (∀ x y w h : ℚ, 0 ≤ w → 0 ≤ h → w * h ≠ 0 →
      BBox.iou ⟨F.num x, F.num y, F.num w, F.num h⟩
          ⟨F.num x, F.num y, F.num w, F.num h⟩ = F.num 1) ∧
    (∀ x y w h x' y' w' h' : ℚ, 0 ≤ w → 0 ≤ h → 0 ≤ w' → 0 ≤ h' →
      BBox.union ⟨F.num x, F.num y, F.num w, F.num h⟩
          ⟨F.num x', F.num y', F.num w', F.num h'⟩ ≠ F.num 0 →
      F.fle (F.num 0)
          (BBox.iou ⟨F.num x, F.num y, F.num w, F.num h⟩
            ⟨F.num x', F.num y', F.num w', F.num h'⟩) = true ∧
      F.fle (BBox.iou ⟨F.num x, F.num y, F.num w, F.num h⟩
            ⟨F.num x', F.num y', F.num w', F.num h'⟩) (F.num 1) = true) := by
  refine ⟨fun A B => BBox.iouSwapEqn A B, ?_, ?_⟩
  · intro x y w h hw hh hwh
    unfold BBox.iou
    rw [unionNum, interNum]
    simp only [min_self, max_self]
    have e1 : x + w - x = w := by ring
    have e2 : y + h - y = h := by ring
    rw [e1, e2, if_neg (by push_neg; exact ⟨hw, hh⟩)]
    rw [F.subNum]
    have e3 : w * h + w * h - w * h = w * h := by ring
    rw [e3, F.divNum, if_neg hwh, div_self hwh]
  · intro x y w h x' y' w' h' hw hh hw' hh' hu
    unfold BBox.iou
    rw [unionNum, interNum] at hu ⊢
    by_cases hg : min (x + w) (x' + w') - max x x' < 0 ∨ min (y + h) (y' + h') - max y y' < 0
    · rw [if_pos hg] at hu ⊢
      rw [F.subNum] at hu ⊢
      have hu0 : w * h + w' * h' - 0 ≠ 0 := fun hc => hu (congrArg F.num hc)
      rw [F.divNum, if_neg hu0]
      constructor
      · rw [F.fleNum, zero_div]
        norm_num
      · rw [F.fleNum, zero_div]
        norm_num
    · rw [if_neg hg] at hu ⊢
      rw [not_or, not_lt, not_lt] at hg
      obtain ⟨hiW0, hiH0⟩ := hg
      have h1 : min (x + w) (x' + w') - max x x' ≤ w := by
        have a1 := min_le_left (x + w) (x' + w')
        have a2 := le_max_left x x'
        linarith
      have h2 : min (x + w) (x' + w') - max x x' ≤ w' := by
        have a1 := min_le_right (x + w) (x' + w')
        have a2 := le_max_right x x'
        linarith
      have h3 : min (y + h) (y' + h') - max y y' ≤ h := by
        have a1 := min_le_left (y + h) (y' + h')
        have a2 := le_max_left y y'
        linarith
      have h4 : min (y + h) (y' + h') - max y y' ≤ h' := by
        have a1 := min_le_right (y + h) (y' + h')
        have a2 := le_max_right y y'
        linarith
      have hI0 : 0 ≤ (min (x + w) (x' + w') - max x x') * (min (y + h) (y' + h') - max y y') :=
        mul_nonneg hiW0 hiH0
      have hIwh : (min (x + w) (x' + w') - max x x') * (min (y + h) (y' + h') - max y y')
          ≤ w * h := mul_le_mul h1 h3 hiH0 hw
      have hIwh' : (min (x + w) (x' + w') - max x x') * (min (y + h) (y' + h') - max y y')
          ≤ w' * h' := mul_le_mul h2 h4 hiH0 hw'
      rw [F.subNum] at hu ⊢
      have huq : w * h + w' * h'
          - (min (x + w) (x' + w') - max x x') * (min (y + h) (y' + h') - max y y') ≠ 0 :=
        fun hc => hu (congrArg F.num hc)
      have hupos : 0 < w * h + w' * h'
          - (min (x + w) (x' + w') - max x x') * (min (y + h) (y' + h') - max y y') :=
        lt_of_le_of_ne (by linarith) (Ne.symm huq)
      have hIu : (min (x + w) (x' + w') - max x x') * (min (y + h) (y' + h') - max y y')
          ≤ w * h + w' * h'
            - (min (x + w) (x' + w') - max x x') * (min (y + h) (y' + h') - max y y') := by
        linarith
      rw [F.divNum, if_neg huq]
      constructor
      · rw [F.fleNum]
        exact decide_eq_true (div_nonneg hI0 (le_of_lt hupos))
      · rw [F.fleNum]
        exact decide_eq_true ((div_le_one hupos).mpr hIu)

theorem c7_iou_algebra_witness :
    ((0:ℚ) ≤ 1 ∧ (1:ℚ) * 1 ≠ 0 ∧
      BBox.iou ⟨F.num 0, F.num 0, F.num 1, F.num 1⟩
        ⟨F.num 0, F.num 0, F.num 1, F.num 1⟩ = F.num 1) ∧
    (BBox.union ⟨F.num 0, F.num 0, F.num 2, F.num 2⟩
        ⟨F.num 1, F.num 1, F.num 2, F.num 2⟩ ≠ F.num 0 ∧
      F.fle (F.num 0)
        (BBox.iou ⟨F.num 0, F.num 0, F.num 2, F.num 2⟩
          ⟨F.num 1, F.num 1, F.num 2, F.num 2⟩) = true ∧
      F.fle (BBox.iou ⟨F.num 0, F.num 0, F.num 2, F.num 2⟩
          ⟨F.num 1, F.num 1, F.num 2, F.num 2⟩) (F.num 1) = true) := by
  have hu : BBox.union ⟨F.num 0, F.num 0, F.num 2, F.num 2⟩
      ⟨F.num 1, F.num 1, F.num 2, F.num 2⟩ ≠ F.num 0 := by
    norm_num [unionNum, interNum, F.subNum, min_def, max_def]
  exact ⟨⟨by norm_num, by norm_num,
    c7_iou_algebra.2.1 0 0 1 1 (by norm_num) (by norm_num) (by norm_num)⟩,
    hu, c7_iou_algebra.2.2 0 0 2 2 1 1 2 2
      (by norm_num) (by norm_num) (by norm_num) (by norm_num) hu⟩


/-! ## Greedy NMS facts -/

theorem F.totalCmpLtIff (x y : F) :
    F.totalCmp x y = Ordering.lt ↔ F.key x < F.key y := by
  rw [F.keyChar]
  split_ifs with h1 h2
  · simp [h1]
  · simp [asymm h2]
  · simp [h1]

theorem F.totalCmpGtIff (x y : F) :
    F.totalCmp x y = Ordering.gt ↔ F.key y < F.key x := by
  rw [F.keyChar]
  split_ifs with h1 h2
  · simp [asymm h1]
  · simp [h2]
  · simp [h2]

theorem F.rankFourIff (x : F) : F.rank x = 4 ↔ x = F.nan false := by
  rcases x with (_ | _) | (_ | _) | a <;> simp [F.rank]

theorem F.rankZeroIff (x : F) : F.rank x = 0 ↔ x = F.nan true := by
  rcases x with (_ | _) | (_ | _) | a <;> simp [F.rank]

theorem nmsSortSorted (palms : List Palm) :
    (nmsSort palms).Pairwise (fun a b => palmLe a b = true) := by
  unfold nmsSort
  exact List.sorted_mergeSort palmLeTransT palmLeTotalT palms

theorem nmsLoopSuccCons (st it : F) (fuel : ℕ) (acc : List Palm) (p : Palm)
    (rest : List Palm) :
    nmsLoop st it (fuel + 1) acc (p :: rest) =
      if F.flt p.score st then some (NmsOut.ok acc)
      else nmsLoop st it fuel (acc ++ [p])
        ((p :: rest).filter (fun p2 => F.flt (p2.bbox.iou p.bbox) it)) := rfl

theorem nmsLoopSuccNil (st it : F) (fuel : ℕ) (acc : List Palm) :
    nmsLoop st it (fuel + 1) acc [] = some NmsOut.panic := rfl

theorem nmsLoopSpin (st it : F) (p : Palm)
    (hscore : F.flt p.score st = false)
    (hkeep : F.flt (p.bbox.iou p.bbox) it = true) :
    ∀ (fuel : ℕ) (acc rest : List Palm),
      nmsLoop st it fuel acc (p :: rest) = none := by
  intro fuel
  induction fuel with
  | zero => intro acc rest; rfl
  | succ fuel ih =>
    intro acc rest
    rw [nmsLoopSuccCons, if_neg (by simp [hscore])]
    simp only [List.filter_cons, hkeep, if_true]
    exact ih _ _

theorem nmsLoopSublist (st it : F) :
    ∀ (fuel : ℕ) (acc palms res : List Palm),
      nmsLoop st it fuel acc palms = some (NmsOut.ok res) →
      ∃ tail, res = acc ++ tail ∧ tail.Sublist palms := by
  intro fuel
  induction fuel with
  | zero => intro acc palms res h; cases h
  | succ fuel ih =>
    intro acc palms res h
    rcases palms with _ | ⟨palm, rest⟩
    · rw [nmsLoopSuccNil] at h
      cases h
    · rw [nmsLoopSuccCons] at h
      by_cases hb : F.flt palm.score st = true
      · rw [if_pos hb] at h
        obtain rfl : acc = res := by injection h with h; injection h
        exact ⟨[], by simp, List.nil_sublist _⟩
      · rw [if_neg (by simp [hb])] at h
        by_cases hk : F.flt (palm.bbox.iou palm.bbox) it = true
        · rw [show List.filter (fun p2 => F.flt (p2.bbox.iou palm.bbox) it) (palm :: rest)
              = palm :: List.filter (fun p2 => F.flt (p2.bbox.iou palm.bbox) it) rest from by
            simp only [List.filter_cons, hk, if_true]] at h
          rw [nmsLoopSpin st it palm (by simpa using hb) hk fuel _ _] at h
          cases h
        · rw [show List.filter (fun p2 => F.flt (p2.bbox.iou palm.bbox) it) (palm :: rest)
              = List.filter (fun p2 => F.flt (p2.bbox.iou palm.bbox) it) rest from by
            simp only [List.filter_cons, hk]
            simp] at h
          obtain ⟨tail, rfl, hsub⟩ := ih _ _ _ h
          refine ⟨palm :: tail, by simp, ?_⟩
          exact List.Sublist.cons₂ palm (hsub.trans (List.filter_sublist rest))

theorem nmsLoopPairwise (st it : F) :
    ∀ (fuel : ℕ) (acc palms res : List Palm),
      (∀ a ∈ acc, ∀ q ∈ palms, F.flt (q.bbox.iou a.bbox) it = true) →
      acc.Pairwise (fun a b => F.flt (b.bbox.iou a.bbox) it = true) →
      nmsLoop st it fuel acc palms = some (NmsOut.ok res) →
      res.Pairwise (fun a b => F.flt (b.bbox.iou a.bbox) it = true) := by
  intro fuel
  induction fuel with
  | zero => intro acc palms res _ _ h; cases h
  | succ fuel ih =>
    intro acc palms res hInv hPw h
    rcases palms with _ | ⟨palm, rest⟩
    · rw [nmsLoopSuccNil] at h
      cases h
    · rw [nmsLoopSuccCons] at h
      by_cases hb : F.flt palm.score st = true
      · rw [if_pos hb] at h
        obtain rfl : acc = res := by injection h with h; injection h
        exact hPw
      · rw [if_neg (by simp [hb])] at h
        refine ih (acc ++ [palm]) _ res ?_ ?_ h
        · intro a ha q hq
          have hq' := List.mem_filter.mp hq
          rcases List.mem_append.mp ha with ha' | ha'
          · exact hInv a ha' q hq'.1
          · have he : a = palm := by simpa using ha'
            subst he
            exact hq'.2
        · rw [List.pairwise_append]
          refine ⟨hPw, by simp, ?_⟩
          intro a ha b hb'
          have he : b = palm := by simpa using hb'
          rw [he]
          exact hInv a ha palm (List.mem_cons_self _ _)


theorem F.totalCmpNumLt {a b : ℚ} (h : a < b) :
    F.totalCmp (F.num a) (F.num b) = Ordering.lt := by
  simp [F.totalCmp, h]

theorem iouNumEval (x y w h x' y' w' h' : ℚ) :
    BBox.iou ⟨F.num x, F.num y, F.num w, F.num h⟩
        ⟨F.num x', F.num y', F.num w', F.num h'⟩ =
      F.div
        (if (min (x + w) (x' + w') - max x x' < 0) ∨ (min (y + h) (y' + h') - max y y' < 0)
         then F.num 0
         else F.num ((min (x + w) (x' + w') - max x x') * (min (y + h) (y' + h') - max y y')))
        (F.sub (F.num (w * h + w' * h'))
          (if (min (x + w) (x' + w') - max x x' < 0) ∨ (min (y + h) (y' + h') - max y y' < 0)
           then F.num 0
           else F.num ((min (x + w) (x' + w') - max x x') * (min (y + h) (y' + h') - max y y')))) := by
  unfold BBox.iou
  rw [unionNum, interNum]

/-- C3: whenever the greedy suppressor (sort, then accept/retain loop)
returns a result, no two detections in the returned sequence have mutual IoU
greater than or equal to the configured IoU threshold (under the code's IEEE
`>=`; in particular a NaN IoU also fails the `>=`). -/
theorem c3_nms_no_overlap (st it : F) (fuel : ℕ) (palms res : List Palm)
    (h : nmsRun st it fuel palms = some (NmsOut.ok res)) :
    ∀ i j (hi : i < res.length) (hj : j < res.length), i ≠ j →
      F.fge ((res.get ⟨i, hi⟩).bbox.iou (res.get ⟨j, hj⟩).bbox) it = false := by
  have hpw := nmsLoopPairwise st it fuel [] (nmsSort palms) res
    (by intro a ha; cases ha) (by simp) h
  intro i j hi hj hne
  simp only [List.get_eq_getElem]
  rcases Nat.lt_or_ge i j with hij | hge
  · have hR := List.pairwise_iff_getElem.mp hpw i j hi hj hij
    have hnn := F.fltTrueNotNanL hR
    have heq := F.eqnEqOfNotNan (BBox.iouSwapEqn (res[j]).bbox (res[i]).bbox) hnn
    rw [← heq]
    exact F.fltImpNotFge hR
  · have hij : j < i := by omega
    have hR := List.pairwise_iff_getElem.mp hpw j i hj hi hij
    exact F.fltImpNotFge hR

/-- C5 refuted, code bug: when every candidate has been accepted or
suppressed the loop does not stop; its next iteration indexes `palms[0]` on
the now-empty vector and panics.  Here: a single candidate above the score
threshold is accepted, removed by its own retain pass (its self-IoU 1 is not
< the threshold 1), and the second iteration panics. -/
theorem c5_panic_on_exhaustion :
    nmsRun (F.num 0) (F.num 1) 2
      [⟨⟨F.num 0, F.num 0, F.num 1, F.num 1⟩, [], F.num 1⟩] = some NmsOut.panic := by
  have hiou : BBox.iou ⟨F.num 0, F.num 0, F.num 1, F.num 1⟩
      ⟨F.num 0, F.num 0, F.num 1, F.num 1⟩ = F.num 1 := by
    rw [iouNumEval]
    norm_num [F.subNum, F.divNum]
  have hf11 : F.flt (F.num 1) (F.num 1) = false := by
    rw [F.fltNum]; norm_num
  have hf10 : F.flt (F.num 1) (F.num 0) = false := by
    rw [F.fltNum]; norm_num
  unfold nmsRun
  rw [show nmsSort [(⟨⟨F.num 0, F.num 0, F.num 1, F.num 1⟩, [], F.num 1⟩ : Palm)]
      = [⟨⟨F.num 0, F.num 0, F.num 1, F.num 1⟩, [], F.num 1⟩] from by
    simp [nmsSort, List.mergeSort]]
  rw [show (2:ℕ) = 1 + 1 from rfl, nmsLoopSuccCons,
    if_neg (by
      rw [show (⟨⟨F.num 0, F.num 0, F.num 1, F.num 1⟩, [], F.num 1⟩ : Palm).score
        = F.num 1 from rfl]
      simp [hf10])]
  simp only [List.filter_cons, List.filter_nil, hiou, hf11, Bool.false_eq_true, if_false]
  rw [show (1:ℕ) = 0 + 1 from rfl, nmsLoopSuccNil]

theorem demoF01 : F.flt (F.num 0) (F.num 1) = true := by
  rw [F.fltNum]; norm_num

theorem demoF11 : F.flt (F.num 1) (F.num 1) = false := by
  rw [F.fltNum]; norm_num

theorem demoF21 : F.flt (F.num 2) (F.num 1) = false := by
  rw [F.fltNum]; norm_num

theorem demoIouAA : BBox.iou demoA.bbox demoA.bbox = F.num 1 := by
  rw [show demoA.bbox = (⟨F.num 0, F.num 0, F.num 1, F.num 1⟩ : BBox) from rfl, iouNumEval]
  norm_num [F.subNum, F.divNum]

theorem demoIouBA : BBox.iou demoB.bbox demoA.bbox = F.num 0 := by
  rw [show demoB.bbox = (⟨F.num 10, F.num 10, F.num 1, F.num 1⟩ : BBox) from rfl,
    show demoA.bbox = (⟨F.num 0, F.num 0, F.num 1, F.num 1⟩ : BBox) from rfl, iouNumEval]
  norm_num [F.subNum, F.divNum, min_def, max_def]

theorem demoIouCA : BBox.iou demoC.bbox demoA.bbox = F.num 0 := by
  rw [show demoC.bbox = (⟨F.num 20, F.num 20, F.num 1, F.num 1⟩ : BBox) from rfl,
    show demoA.bbox = (⟨F.num 0, F.num 0, F.num 1, F.num 1⟩ : BBox) from rfl, iouNumEval]
  norm_num [F.subNum, F.divNum, min_def, max_def]

theorem demoIouBB : BBox.iou demoB.bbox demoB.bbox = F.num 1 := by
  rw [show demoB.bbox = (⟨F.num 10, F.num 10, F.num 1, F.num 1⟩ : BBox) from rfl, iouNumEval]
  norm_num [F.subNum, F.divNum]

theorem demoIouCB : BBox.iou demoC.bbox demoB.bbox = F.num 0 := by
  rw [show demoC.bbox = (⟨F.num 20, F.num 20, F.num 1, F.num 1⟩ : BBox) from rfl,
    show demoB.bbox = (⟨F.num 10, F.num 10, F.num 1, F.num 1⟩ : BBox) from rfl, iouNumEval]
  norm_num [F.subNum, F.divNum, min_def, max_def]

theorem demoSorted : nmsSort [demoA, demoB, demoC] = [demoA, demoB, demoC] := by
  unfold nmsSort
  apply List.mergeSort_of_sorted
  have hBA : palmLe demoA demoB = true := by
    unfold palmLe
    rw [show F.totalCmp demoB.score demoA.score = Ordering.lt from
      F.totalCmpNumLt (by norm_num)]
  have hCA : palmLe demoA demoC = true := by
    unfold palmLe
    rw [show F.totalCmp demoC.score demoA.score = Ordering.lt from
      F.totalCmpNumLt (by norm_num)]
  have hCB : palmLe demoB demoC = true := by
    unfold palmLe
    rw [show F.totalCmp demoC.score demoB.score = Ordering.lt from
      F.totalCmpNumLt (by norm_num)]
  simp [List.pairwise_cons, hBA, hCA, hCB]

theorem demoRun :
    nmsRun (F.num 1) (F.num 1) 3 [demoA, demoB, demoC]
      = some (NmsOut.ok [demoA, demoB]) := by
  unfold nmsRun
  rw [demoSorted]
  rw [show (3:ℕ) = 2 + 1 from rfl, nmsLoopSuccCons,
    if_neg (by rw [show demoA.score = F.num 2 from rfl]; simp [demoF21])]
  simp only [List.filter_cons, List.filter_nil, demoIouAA, demoIouBA, demoIouCA,
    demoF01, demoF11, Bool.false_eq_true, if_false, if_true]
  rw [show (2:ℕ) = 1 + 1 from rfl, nmsLoopSuccCons,
    if_neg (by rw [show demoB.score = F.num 1 from rfl]; simp [demoF11])]
  simp only [List.filter_cons, List.filter_nil, demoIouBB, demoIouCB,
    demoF01, demoF11, Bool.false_eq_true, if_false, if_true]
  rw [show (1:ℕ) = 0 + 1 from rfl, nmsLoopSuccCons,
    if_pos (by rw [show demoC.score = F.num 0 from rfl]; simp [demoF01])]
  simp

theorem c3_nms_no_overlap_witness :
    nmsRun (F.num 1) (F.num 1) 3 [demoA, demoB, demoC]
      = some (NmsOut.ok [demoA, demoB]) ∧
    F.fge (BBox.iou (([demoA, demoB] : List Palm).get ⟨0, by norm_num⟩).bbox
        ((([demoA, demoB] : List Palm).get ⟨1, by norm_num⟩).bbox)) (F.num 1) = false :=
  ⟨demoRun,
   c3_nms_no_overlap (F.num 1) (F.num 1) 3 [demoA, demoB, demoC] [demoA, demoB]
     demoRun 0 1 (by norm_num) (by norm_num) (by norm_num)⟩


/-- C4: whenever the greedy suppressor returns a result, the returned
sequence is sorted descending by score in the total_cmp order used by the
sort, and ties between total_cmp-equal scores are broken by the candidates'
original index order: the result embeds into the input candidate list by an
index map that is strictly increasing on tied scores (stability of the
stable sort, preserved by the greedy filtering). -/
theorem c4_nms_sorted (st it : F) (fuel : ℕ) (palms res : List Palm)
    (h : nmsRun st it fuel palms = some (NmsOut.ok res)) :
    res.Pairwise (fun a b => F.totalCmp a.score b.score ≠ Ordering.lt) ∧
    ∃ ix : Fin res.length → Fin palms.length,
      (∀ k, res.get k = palms.get (ix k)) ∧
      (∀ k l : Fin res.length, k < l →
        F.totalCmp (res.get k).score (res.get l).score = Ordering.eq →
        (ix k : ℕ) < (ix l : ℕ)) := by
  obtain ⟨tail, htail, hsub⟩ := nmsLoopSublist st it fuel [] (nmsSort palms) res h
  rw [List.nil_append] at htail
  rw [← htail] at hsub
  clear htail
  unfold nmsSort at hsub
  have hms : List.mergeSort palms palmLe
      = (List.mergeSort (palms.enum) (List.enumLE palmLe)).map (fun x => x.2) :=
    List.mergeSort_enum.symm
  rw [hms] at hsub
  obtain ⟨tres, htsub, htmap⟩ := List.sublist_map_iff.mp hsub
  have hsorted := List.sorted_mergeSort (List.enumLE_trans palmLeTransT)
    (List.enumLE_total palmLeTotalT) (palms.enum)
  have htpw := List.Pairwise.sublist htsub hsorted
  have hlen : res.length = tres.length := by rw [htmap, List.length_map]
  have hmem : ∀ t ∈ tres, palms[t.1]? = some t.2 := by
    intro t ht
    exact List.mem_enum_iff_getElem?.mp (List.mem_mergeSort.mp (htsub.subset ht))
  have hbound : ∀ t ∈ tres, t.1 < palms.length := by
    intro t ht
    obtain ⟨hh, _⟩ := List.getElem?_eq_some_iff.mp (hmem t ht)
    exact hh
  have hgetq : ∀ n : ℕ, res[n]? = (tres[n]?).map (fun x => x.2) := by
    intro n
    rw [htmap, List.getElem?_map]
  have hget : ∀ k : Fin res.length,
      res.get k = (tres.get (Fin.cast hlen k)).2 := by
    intro k
    have h1 : res[(k : ℕ)]? = some (res.get k) := by
      rw [List.getElem?_eq_some_iff]
      exact ⟨k.2, (List.get_eq_getElem _ _).symm⟩
    have h2 : tres[(k : ℕ)]? = some (tres.get (Fin.cast hlen k)) := by
      rw [List.getElem?_eq_some_iff]
      exact ⟨(Fin.cast hlen k).2, (List.get_eq_getElem tres (Fin.cast hlen k)).symm⟩
    rw [hgetq, h2] at h1
    simp only [Option.map_some'] at h1
    exact (Option.some.injEq _ _ ▸ h1).symm
  constructor
  · rw [htmap, List.pairwise_map]
    refine htpw.imp ?_
    intro a b hab hlt
    by_cases hle : palmLe a.2 b.2 = true
    · rw [palmLeEqTrue] at hle
      rw [F.totalCmpLtIff] at hlt
      exact hle ((F.totalCmpGtIff _ _).mpr hlt)
    · unfold List.enumLE at hab
      rw [if_neg (by simpa using hle)] at hab
      cases hab
  · refine ⟨fun k => ⟨(tres.get (Fin.cast hlen k)).1,
      hbound _ (List.get_mem tres _ _)⟩, ?_, ?_⟩
    · intro k
      rw [hget k, List.get_eq_getElem]
      have hm := hmem _ (List.get_mem tres (k : ℕ) (Fin.cast hlen k).2)
      obtain ⟨hh, hv⟩ := List.getElem?_eq_some_iff.mp hm
      exact hv.symm
    · intro k l hkl heq
      have hk2 : (k : ℕ) < tres.length := by rw [← hlen]; exact k.2
      have hl2 : (l : ℕ) < tres.length := by rw [← hlen]; exact l.2
      have hR := List.pairwise_iff_getElem.mp htpw (k : ℕ) (l : ℕ) hk2 hl2 hkl
      rw [hget k, hget l] at heq
      have hkeys := (F.totalCmpEqOrd _ _).mp heq
      have hgk : tres.get (Fin.cast hlen k) = tres[(k : ℕ)] := List.get_eq_getElem _ _
      have hgl : tres.get (Fin.cast hlen l) = tres[(l : ℕ)] := List.get_eq_getElem _ _
      rw [hgk, hgl] at hkeys
      have hle1 : palmLe (tres[(k : ℕ)]).2 (tres[(l : ℕ)]).2 = true := by
        rw [palmLeKey]
        exact le_of_eq hkeys.symm
      have hle2 : palmLe (tres[(l : ℕ)]).2 (tres[(k : ℕ)]).2 = true := by
        rw [palmLeKey]
        exact le_of_eq hkeys
      unfold List.enumLE at hR
      rw [if_pos hle1, if_pos hle2] at hR
      have hletag : (tres[(k : ℕ)]).1 ≤ (tres[(l : ℕ)]).1 := by
        simpa using hR
      have hnodupAll :
          ((List.mergeSort (palms.enum) (List.enumLE palmLe)).map Prod.fst).Nodup := by
        have hperm := (List.mergeSort_perm (palms.enum) (List.enumLE palmLe)).map Prod.fst
        have hr : ((palms.enum).map Prod.fst).Nodup := by
          rw [List.enum_map_fst]
          exact List.nodup_range _
        exact hperm.nodup_iff.mpr hr
      have htnodup : (tres.map Prod.fst).Nodup :=
        List.Nodup.sublist (htsub.map Prod.fst) hnodupAll
      have hmapk : (k : ℕ) < (tres.map Prod.fst).length := by
        rw [List.length_map]; exact hk2
      have hmapl : (l : ℕ) < (tres.map Prod.fst).length := by
        rw [List.length_map]; exact hl2
      have hne : (tres[(k : ℕ)]).1 ≠ (tres[(l : ℕ)]).1 := by
        intro hc
        have hc' : (tres.map Prod.fst)[(k : ℕ)] = (tres.map Prod.fst)[(l : ℕ)] := by
          rw [List.getElem_map, List.getElem_map]
          exact hc
        have := (List.Nodup.getElem_inj_iff htnodup).mp hc'
        have hkl' : (k : ℕ) < (l : ℕ) := hkl
        omega
      simp only [hgk, hgl]
      exact lt_of_le_of_ne hletag hne

theorem c4_nms_sorted_witness :
    ([demoA, demoB] : List Palm).Pairwise
      (fun a b => F.totalCmp a.score b.score ≠ Ordering.lt) ∧
    ∃ ix : Fin ([demoA, demoB] : List Palm).length →
        Fin ([demoA, demoB, demoC] : List Palm).length,
      (∀ k, ([demoA, demoB] : List Palm).get k
        = ([demoA, demoB, demoC] : List Palm).get (ix k)) ∧
      (∀ k l : Fin ([demoA, demoB] : List Palm).length, k < l →
        F.totalCmp (([demoA, demoB] : List Palm).get k).score
          (([demoA, demoB] : List Palm).get l).score = Ordering.eq →
        (ix k : ℕ) < (ix l : ℕ)) :=
  c4_nms_sorted (F.num 1) (F.num 1) 3 [demoA, demoB, demoC] [demoA, demoB] demoRun


theorem F.totalCmpSelf (x : F) : F.totalCmp x x = Ordering.eq := by
  rw [F.keyChar]
  simp

theorem F.rankLeFour (x : F) : F.rank x ≤ 4 := by
  rcases x with (_ | _) | (_ | _) | a <;> simp [F.rank]

theorem F.keyNanFalseLe {x : F} (h : F.key (F.nan false) ≤ F.key x) :
    x = F.nan false := by
  have h4 := F.rankLeFour x
  rcases (Prod.Lex.le_iff _ _).mp h with hlt | ⟨heq, _⟩
  · have hlt' : F.rank (F.nan false) < F.rank x := hlt
    have hc : (4:ℕ) < F.rank x := hlt'
    omega
  · have heq' : F.rank (F.nan false) = F.rank x := heq
    have h4' : (4:ℕ) = F.rank x := heq'
    exact (F.rankFourIff x).mp h4'.symm

theorem F.keyLeNanTrue {x : F} (h : F.key x ≤ F.key (F.nan true)) :
    x = F.nan true := by
  rcases (Prod.Lex.le_iff _ _).mp h with hlt | ⟨heq, _⟩
  · have hlt' : F.rank x < F.rank (F.nan true) := hlt
    have hc : F.rank x < 0 := hlt'
    omega
  · have heq' : F.rank x = F.rank (F.nan true) := heq
    exact (F.rankZeroIff x).mp heq'

theorem mergeSortPair (le : Palm → Palm → Bool) (a b : Palm) :
    List.mergeSort [a, b] le = if le a b then [a, b] else [b, a] := by
  simp only [List.mergeSort, List.splitInTwo, List.splitAt_eq]
  norm_num
  rw [List.cons_merge_cons]
  split_ifs <;> simp

/-- C10 counterexample: a candidate whose score is a negative NaN (sign bit
set, still a NaN) sorts behind the finite-score candidate under total_cmp,
not ahead of all finite-score candidates as claimed. -/
theorem c10_counterexample :
    F.isNan (F.nan true) = true ∧
    nmsSort [⟨⟨F.num 0, F.num 0, F.num 1, F.num 1⟩, [], F.nan true⟩,
             ⟨⟨F.num 3, F.num 3, F.num 1, F.num 1⟩, [], F.num 0⟩] =
      [⟨⟨F.num 3, F.num 3, F.num 1, F.num 1⟩, [], F.num 0⟩,
       ⟨⟨F.num 0, F.num 0, F.num 1, F.num 1⟩, [], F.nan true⟩] := by
  refine ⟨rfl, ?_⟩
  unfold nmsSort
  rw [mergeSortPair]
  have hgt : F.totalCmp (F.num 0) (F.nan true) = Ordering.gt :=
    (F.totalCmpGtIff _ _).mpr ((F.keyLtIff _ _).mpr (Or.inl (by simp [F.rank])))
  have hle : ¬(palmLe ⟨⟨F.num 0, F.num 0, F.num 1, F.num 1⟩, [], F.nan true⟩
      ⟨⟨F.num 3, F.num 3, F.num 1, F.num 1⟩, [], F.num 0⟩ = true) := by
    rw [palmLeEqTrue]
    simp only [ne_eq, not_not]
    exact hgt
  rw [if_neg hle]

/-- C10 amended: under the total_cmp sort, positive-NaN scores (sign bit
clear, as in f32::NAN) form a prefix of the sorted candidates, ahead of all
finite scores, while negative-NaN scores form a suffix, behind all finite
scores; in both cases, when a NaN-score candidate becomes the head of the
remaining list the loop accepts it regardless of the score threshold
(including +infinity), because score < threshold is false for NaN. -/
theorem c10_nan_scores :
    (∀ (palms : List Palm) (k l : ℕ) (hk : k < (nmsSort palms).length)
        (hl : l < (nmsSort palms).length), k < l →
        ((nmsSort palms).get ⟨l, hl⟩).score = F.nan false →
        ((nmsSort palms).get ⟨k, hk⟩).score = F.nan false) ∧
    (∀ (palms : List Palm) (k l : ℕ) (hk : k < (nmsSort palms).length)
        (hl : l < (nmsSort palms).length), k < l →
        ((nmsSort palms).get ⟨k, hk⟩).score = F.nan true →
        ((nmsSort palms).get ⟨l, hl⟩).score = F.nan true) ∧
    (∀ (st it : F) (fuel : ℕ) (acc : List Palm) (p : Palm) (rest : List Palm)
        (s : Bool), p.score = F.nan s →
        nmsLoop st it (fuel + 1) acc (p :: rest) =
          nmsLoop st it fuel (acc ++ [p])
            ((p :: rest).filter (fun p2 => F.flt (p2.bbox.iou p.bbox) it))) := by
  refine ⟨?_, ?_, ?_⟩
  · intro palms k l hk hl hkl hnan
    have hpw := nmsSortSorted palms
    have hR := List.pairwise_iff_getElem.mp hpw k l hk hl hkl
    rw [palmLeKey] at hR
    rw [List.get_eq_getElem] at hnan ⊢
    rw [hnan] at hR
    exact F.keyNanFalseLe hR
  · intro palms k l hk hl hkl hnan
    have hpw := nmsSortSorted palms
    have hR := List.pairwise_iff_getElem.mp hpw k l hk hl hkl
    rw [palmLeKey] at hR
    rw [List.get_eq_getElem] at hnan ⊢
    rw [hnan] at hR
    exact F.keyLeNanTrue hR
  · intro st it fuel acc p rest s hs
    rw [nmsLoopSuccCons, if_neg (by rw [hs, F.fltNanL]; simp)]

theorem demoSortedN : nmsSort [demoN, demoM] = [demoN, demoM] := by
  unfold nmsSort
  apply List.mergeSort_of_sorted
  have hNM : palmLe demoN demoM = true := by
    unfold palmLe
    rw [show F.totalCmp demoM.score demoN.score = Ordering.eq from F.totalCmpSelf _]
  simp [hNM]

theorem c10_nan_scores_witness :
    ((nmsSort [demoN, demoM]).get ⟨0, by simp [nmsSort]⟩).score = F.nan false ∧
    nmsLoop (F.inf false) (F.num 1) (0 + 1) [] [demoN] =
      nmsLoop (F.inf false) (F.num 1) 0 ([] ++ [demoN])
        (([demoN]).filter (fun p2 => F.flt (p2.bbox.iou demoN.bbox) (F.num 1))) :=
  ⟨c10_nan_scores.1 [demoN, demoM] 0 1 (by simp [nmsSort]) (by simp [nmsSort])
      (by norm_num)
      (by have hh : ∀ hb, (nmsSort [demoN, demoM]).get ⟨1, hb⟩ = demoM := by
            intro hb
            simp [demoSortedN]
          rw [hh]
          rfl),
   c10_nan_scores.2.2 (F.inf false) (F.num 1) 0 [] demoN [] false rfl⟩

end PalmDetect